import Mathlib

/-
Verification of the file-versioning and reconciliation logic of
maven_iuvs/download.py (function sync_data) against its design
specification.

Paths are modelled as lists of characters, mirroring Python strings:
Python slicing a[:n] / a[n:] becomes List.take / List.drop, and string
equality becomes list equality.  Inventories are lists of paths.

The function get_latest_files is imported by download.py from
maven_iuvs.search, whose source is not part of this tree; it is
modelled from the specification (sections 4.1 and 4.2), as marked on
each of those definitions.
-/

namespace MavenIuvs

/-- Paths are lists of characters, mirroring Python strings. -/
abbrev Path := List Char

/-- Modelled from the spec: the filename part of a path (the characters
after the last slash); download.py applies os.path.basename-style logic
through get_latest_files, whose source (maven_iuvs.search) is missing. -/
def basename (p : Path) : Path :=
  (p.reverse.takeWhile (fun c => decide (c ≠ '/'))).reverse

/-- Modelled from the spec: locate the last occurrence of the version
marker "_v" in a filename, returning the characters before the marker
and the characters after it.  Returns none when no marker is present. -/
def splitLastV : List Char → Option (List Char × List Char)
  | [] => none
  | [_] => none
  | a :: b :: rest =>
    match splitLastV (b :: rest) with
    | some (pre, post) => some (a :: pre, post)
    | none => if a = '_' ∧ b = 'v' then some ([], rest) else none

/-- Numeric value of a list of decimal digit characters. -/
def digitsVal (ds : List Char) : Nat :=
  ds.foldl (fun n c => 10 * n + (c.toNat - 48)) 0

/-- Result of the filename version parser of spec section 4.1:
a logical key, a version ordinal and a success flag. -/
structure Parsed where
  key : Path
  ord : Nat
  ok : Bool
deriving DecidableEq

/-- Modelled from the spec: section 4.1 parse(path) ->
(logical_key, version_ordinal, ok).  The logical key is the part of the
filename before the last version marker "_v"; the ordinal is the run of
decimal digits following the marker.  A name with no marker, or no
digits after it, is malformed: ok is false, the ordinal defaults to 0
(the lowest possible value) and the key is the whole filename (the
stable extractable prefix).  The parser is a total function. -/
def parseVersion (p : Path) : Parsed :=
  match splitLastV (basename p) with
  | none => ⟨basename p, 0, false⟩
  | some (pre, post) =>
    if (post.takeWhile Char.isDigit).isEmpty then ⟨basename p, 0, false⟩
    else ⟨pre, digitsVal (post.takeWhile Char.isDigit), true⟩

/-- Entry of the resolver's accumulator: logical key, winning path so
far, and that path's version ordinal. -/
abbrev Entry := Path × Path × Nat

/-- Modelled from the spec: insert one record into the per-key table of
current winners.  A record replaces the stored winner of its key only
when its ordinal is strictly greater, so on equal ordinals the record
already present (the earlier one in the input sequence) is kept. -/
def insertRecord (k p : Path) (o : Nat) : List Entry → List Entry
  | [] => [(k, p, o)]
  | e :: es =>
    if e.1 = k then
      (if e.2.2 < o then (k, p, o) :: es else e :: es)
    else
      e :: insertRecord k p o es

/-- One step of the resolver's fold over the inventory. -/
def step (acc : List Entry) (p : Path) : List Entry :=
  insertRecord (parseVersion p).key p (parseVersion p).ord acc

/-- Modelled from the spec: the per-key winner table built by folding
the inventory from the front. -/
def latestFold (inv : List Path) : List Entry :=
  inv.foldl step []

/-- Modelled from the spec: section 4.2 resolve_latest.  Groups all
records by logical key, keeps the record with the maximum version
ordinal in each group, prefers the record appearing earlier in the
input on exact ordinal ties, and returns the winning paths.  This
models maven_iuvs.search.get_latest_files, imported by download.py but
whose source is not in this tree. -/
def get_latest_files (inv : List Path) : List Path :=
  (latestFold inv).map (fun e => e.2.1)

/-- Production root directory used by sync_data (download.py line 349). -/
def production_l1b : Path := "/maven_iuvs/production/products/level1b/".toList

/-- Stage root directory used by sync_data (download.py line 350). -/
def stage_l1b : Path := "/maven_iuvs/stage/products/level1b/".toList

/-- Combined inventory passed to the resolver (download.py lines
396-398): np.concatenate([local_filenames, prod_filenames,
stage_filenames]), local records first. -/
def combined (localPat prod stage : List Path) : List Path :=
  localPat ++ prod ++ stage

/-- Latest set over the combined inventory (download.py lines 396-398):
files_to_sync = get_latest_files(np.concatenate([...])). -/
def files_to_sync (localPat prod stage : List Path) : List Path :=
  get_latest_files (combined localPat prod stage)

/-- Download.py lines 401-405: members of files_to_sync whose prefix of
length len(production_l1b) equals production_l1b, each stripped of that
prefix. -/
def files_from_production (localPat prod stage : List Path) : List Path :=
  ((files_to_sync localPat prod stage).filter
      (fun a => decide (a.take production_l1b.length = production_l1b))).map
    (fun a => a.drop production_l1b.length)

/-- Download.py lines 406-408: members of files_to_sync whose prefix of
length len(stage_l1b) equals stage_l1b, each stripped of that prefix. -/
def files_from_stage (localPat prod stage : List Path) : List Path :=
  ((files_to_sync localPat prod stage).filter
      (fun a => decide (a.take stage_l1b.length = stage_l1b))).map
    (fun a => a.drop stage_l1b.length)

/-- Members of the latest set attributed to neither remote root: the
files already present locally at their latest version (the unchanged
component of the spec's ReconciliationPlan, derived from the same
filters the code applies at lines 401-408). -/
def unchanged (localPat prod stage : List Path) : List Path :=
  (files_to_sync localPat prod stage).filter
    (fun a => decide (¬ (a.take production_l1b.length = production_l1b ∨
                         a.take stage_l1b.length = stage_l1b)))

/-- Lexicographic comparison of paths, mirroring Python string order as
used by numpy setdiff1d and sorted. -/
def pathLe (a b : Path) : Bool :=
  match a, b with
  | [], _ => true
  | _ :: _, [] => false
  | x :: xs, y :: ys => if x = y then pathLe xs ys else decide (x < y)

/-- Insert into a sorted list of paths. -/
def insSorted (x : Path) : List Path → List Path
  | [] => [x]
  | y :: ys => if pathLe x y then x :: y :: ys else y :: insSorted x ys

/-- Insertion sort on paths (the sorting performed by numpy setdiff1d
and by Python sorted). -/
def insSort : List Path → List Path
  | [] => []
  | x :: xs => insSorted x (insSort xs)

/-- Embedding of np.setdiff1d(a, b): the sorted unique values of a that
are not in b. -/
def setdiff1d (a b : List Path) : List Path :=
  insSort ((a.filter (fun x => decide (x ∉ b))).dedup)

/-- Download.py lines 445-448: after the transfers, the local tree is
re-enumerated (glob of all local .fits files) and the files to delete
are np.setdiff1d(local_filenames, get_latest_files(local_filenames)),
computed over that re-enumeration alone. -/
def local_files_to_delete (localPost : List Path) : List Path :=
  setdiff1d localPost (get_latest_files localPost)

/-- Answers the user can give at the deletion prompt of sync_data
(download.py lines 451-465): y, n, p, or anything else. -/
inductive Ans where
  | yes : Ans
  | no : Ans
  | printList : Ans
  | other : Ans
deriving DecidableEq

/-- Observable actions of one sync_data run, in program order.  Prints
and external-collaborator calls are events; the warnAmbiguous event is
the ambiguous-source warning the specification (section 7) posits for a
path reported by two remote roots. -/
inductive Event where
  | spiceSync : Event
  | printFetching : Event
  | printNoMatching : Event
  | printSyncCount : Nat → Event
  | fetchProd : List Path → Event
  | fetchStage : List Path → Event
  | printCleanup : Event
  | askDelete : Nat → Event
  | printFileList : List Path → Event
  | printHelp : Event
  | deleteFiles : List Path → Event
  | saveIndex : List Path → Event
  | printElapsed : Event
  | warnAmbiguous : Path → Event
deriving DecidableEq

/-- Inputs of one sync_data run: the two flags, the enumeration results
the run reads from its environment, and the user's answers at the
deletion prompt.  localPat is glob(l1b_dir/*/pattern) before the
transfers (line 387); localPost is glob(l1b_dir/*/*.fits*) after them
(line 445); localFinal is the final glob used for the filename index
(line 472). -/
structure SyncIn where
  spice : Bool
  l1b : Bool
  localPat : List Path
  prod : List Path
  stage : List Path
  localPost : List Path
  localFinal : List Path
  answers : List Ans
deriving DecidableEq

/-- The deletion prompt loop of download.py lines 451-465: each
iteration prints the count of files to delete and reads an answer;
y deletes and stops, n stops, p prints the file list and repeats,
anything else prints help and repeats.  An exhausted answer list models
the run blocking at the prompt after printing it. -/
def delLoop (td : List Path) : List Ans → List Event
  | [] => [Event.askDelete td.length]
  | a :: rest =>
    Event.askDelete td.length ::
      (match a with
       | Ans.yes => [Event.deleteFiles td]
       | Ans.no => []
       | Ans.printList => Event.printFileList td :: delLoop td rest
       | Ans.other => Event.printHelp :: delLoop td rest)

/-- The deletion phase: the loop runs only when there is at least one
file to delete (the loop guard at line 451). -/
def delPhase (td : List Path) (answers : List Ans) : List Event :=
  if td.length = 0 then [] else delLoop td answers

/-- Event trace of one sync_data run (download.py lines 354-485),
restricted to the pure reconciliation data flow: the SPICE rsync when
requested, then for the l1b branch the name fetching, the early return
when both remote inventories are empty (lines 392-394), otherwise the
two transfers, the cleanup, the deletion prompt loop, the filename
index save, and the final elapsed-time print (skipped by the early
return, which leaves the function). -/
def syncTrace (i : SyncIn) : List Event :=
  (if i.spice then [Event.spiceSync] else []) ++
    (if i.l1b then
      Event.printFetching ::
        (if i.prod.length = 0 ∧ i.stage.length = 0 then
          [Event.printNoMatching]
        else
          Event.printSyncCount (files_from_production i.localPat i.prod i.stage).length ::
          Event.fetchProd (files_from_production i.localPat i.prod i.stage) ::
          Event.printSyncCount (files_from_stage i.localPat i.prod i.stage).length ::
          Event.fetchStage (files_from_stage i.localPat i.prod i.stage) ::
          Event.printCleanup ::
            (delPhase (local_files_to_delete i.localPost) i.answers ++
              [Event.saveIndex (insSort i.localFinal), Event.printElapsed]))
    else [Event.printElapsed])

/-- The ReconciliationPlan of spec section 3: the two per-root fetch
lists, the local deletions, and the unchanged files. -/
structure ReconciliationPlan where
  to_fetch_production : List Path
  to_fetch_stage : List Path
  to_delete_local : List Path
  unchanged_local : List Path
deriving DecidableEq

/-- The plan computed by one sync_data run from its inputs. -/
def planOf (i : SyncIn) : ReconciliationPlan :=
  ⟨files_from_production i.localPat i.prod i.stage,
   files_from_stage i.localPat i.prod i.stage,
   local_files_to_delete i.localPost,
   unchanged i.localPat i.prod i.stage⟩

/-- First entry of the winner table with the given key. -/
def lookupAcc (k : Path) : List Entry → Option (Path × Nat)
  | [] => none
  | e :: es => if e.1 = k then some (e.2.1, e.2.2) else lookupAcc k es

/-- Merge of two optional candidates, preferring the left one on equal
ordinals (the left one stands for the earlier part of the inventory). -/
def comb : Option (Path × Nat) → Option (Path × Nat) → Option (Path × Nat)
  | none, b => b
  | some e, none => some e
  | some e, some f => if e.2 < f.2 then some f else some e

/-- Reference recursion computing, for one logical key, the earliest
record of maximal ordinal in an inventory. -/
def bestEntry (k : Path) : List Path → Option (Path × Nat)
  | [] => none
  | p :: ps =>
    if (parseVersion p).key = k then
      match bestEntry k ps with
      | none => some (p, (parseVersion p).ord)
      | some f =>
        if (parseVersion p).ord < f.2 then some f else some (p, (parseVersion p).ord)
    else bestEntry k ps

/-- Keys of a winner table. -/
def keysOf (acc : List Entry) : List Path :=
  acc.map (fun e => e.1)

lemma mem_insSorted (a x : Path) (l : List Path) :
    a ∈ insSorted x l ↔ a = x ∨ a ∈ l := by
  induction l with
  | nil => simp [insSorted]
  | cons y ys ih =>
    by_cases h : pathLe x y = true
    · simp [insSorted, h]
    · simp only [insSorted, if_neg h, List.mem_cons, ih]
      tauto

lemma mem_insSort (a : Path) (l : List Path) : a ∈ insSort l ↔ a ∈ l := by
  induction l with
  | nil => simp [insSort]
  | cons x xs ih => simp [insSort, mem_insSorted, ih]

lemma mem_setdiff1d (x : Path) (a b : List Path) :
    x ∈ setdiff1d a b ↔ x ∈ a ∧ x ∉ b := by
  simp [setdiff1d, mem_insSort, List.mem_dedup, List.mem_filter]

lemma rootsIncompat (a : Path)
    (h1 : a.take production_l1b.length = production_l1b)
    (h2 : a.take stage_l1b.length = stage_l1b) : False := by
  have hmin : min stage_l1b.length production_l1b.length = stage_l1b.length := by
    decide
  have h3 : a.take stage_l1b.length =
      (a.take production_l1b.length).take stage_l1b.length := by
    rw [List.take_take, hmin]
  rw [h1, h2] at h3
  exact absurd h3 (by decide)

lemma takeDropRecover (a r : Path) (n : Nat) (h : a.take n = r) :
    r ++ a.drop n = a := by
  rw [← h, List.take_append_drop]

lemma map_eq_self {α : Type} (f : α → α) :
    ∀ l : List α, (∀ a ∈ l, f a = a) → l.map f = l := by
  intro l
  induction l with
  | nil => intro _; rfl
  | cons a as ih =>
    intro h
    simp only [List.map_cons, h a (by simp), ih (fun b hb => h b (by simp [hb]))]

lemma comb_none_right (a : Option (Path × Nat)) : comb a none = a := by
  cases a <;> rfl

lemma comb_assoc (a b c : Option (Path × Nat)) :
    comb (comb a b) c = comb a (comb b c) := by
  match a, b, c with
  | none, b, c => rfl
  | some e, none, c => rfl
  | some e, some f, none =>
    by_cases h : e.2 < f.2 <;> simp [comb, h]
  | some e, some f, some g =>
    by_cases h1 : e.2 < f.2 <;> by_cases h2 : f.2 < g.2 <;>
      by_cases h3 : e.2 < g.2 <;>
      simp [comb, h1, h2, h3] <;> omega

lemma bestEntry_cons (k p : Path) (ps : List Path) :
    bestEntry k (p :: ps) =
      if (parseVersion p).key = k then
        comb (some (p, (parseVersion p).ord)) (bestEntry k ps)
      else bestEntry k ps := by
  by_cases h : (parseVersion p).key = k
  · cases hb : bestEntry k ps <;> simp [bestEntry, comb, h, hb]
  · simp [bestEntry, h]

lemma lookupAcc_insertRecord (k k' p : Path) (o : Nat) (acc : List Entry) :
    lookupAcc k (insertRecord k' p o acc) =
      if k' = k then comb (lookupAcc k acc) (some (p, o)) else lookupAcc k acc := by
  induction acc with
  | nil =>
    by_cases h : k' = k <;> simp [insertRecord, lookupAcc, comb, h]
  | cons e es ih =>
    by_cases he : e.1 = k'
    · by_cases ho : e.2.2 < o
      · by_cases hk : k' = k
        · have hek : e.1 = k := he.trans hk
          simp [insertRecord, he, ho, lookupAcc, hk, hek, comb]
        · have hek : ¬ e.1 = k := fun h => hk (he ▸ h)
          simp [insertRecord, he, ho, lookupAcc, hk, hek]
      · by_cases hk : k' = k
        · have hek : e.1 = k := he.trans hk
          simp [insertRecord, he, ho, lookupAcc, hk, hek, comb]
        · simp [insertRecord, he, ho, lookupAcc, hk]
    · by_cases hek : e.1 = k
      · have hk : ¬ k' = k := fun h => he (h ▸ hek)
        have hk2 : ¬ k = k' := fun h => hk h.symm
        simp [insertRecord, he, lookupAcc, hek, hk, hk2]
      · simp [insertRecord, he, lookupAcc, hek, ih]

lemma lookupAcc_foldl (xs : List Path) :
    ∀ (acc : List Entry) (k : Path),
      lookupAcc k (xs.foldl step acc) =
        comb (lookupAcc k acc) (bestEntry k xs) := by
  induction xs with
  | nil =>
    intro acc k
    simp [bestEntry, comb_none_right]
  | cons p ps ih =>
    intro acc k
    rw [List.foldl_cons, ih, bestEntry_cons]
    show comb (lookupAcc k (insertRecord (parseVersion p).key p (parseVersion p).ord acc)) _ = _
    rw [lookupAcc_insertRecord]
    by_cases h : (parseVersion p).key = k
    · rw [if_pos h, if_pos h, comb_assoc]
    · rw [if_neg h, if_neg h]

lemma lookupAcc_latestFold (inv : List Path) (k : Path) :
    lookupAcc k (latestFold inv) = bestEntry k inv := by
  have := lookupAcc_foldl inv [] k
  simpa [latestFold, lookupAcc, comb] using this

lemma mem_insertRecord (e : Entry) (k p : Path) (o : Nat) :
    ∀ acc : List Entry, e ∈ insertRecord k p o acc → e ∈ acc ∨ e = (k, p, o) := by
  intro acc
  induction acc with
  | nil => simp [insertRecord]
  | cons f fs ih =>
    by_cases hf : f.1 = k
    · by_cases ho : f.2.2 < o <;> simp [insertRecord, hf, ho, List.mem_cons] <;> tauto
    · simp only [insertRecord, if_neg hf, List.mem_cons]
      rintro (rfl | h)
      · exact Or.inl (Or.inl rfl)
      · rcases ih h with h' | h'
        · exact Or.inl (Or.inr h')
        · exact Or.inr h'

/-- Well-formedness of a table entry: its stored key and ordinal are
those parsed from its stored path. -/
def EntryWf (e : Entry) : Prop :=
  (parseVersion e.2.1).key = e.1 ∧ (parseVersion e.2.1).ord = e.2.2

lemma entryWf_foldl (xs : List Path) :
    ∀ acc : List Entry, (∀ e ∈ acc, EntryWf e) →
      ∀ e ∈ xs.foldl step acc, EntryWf e := by
  induction xs with
  | nil => intro acc h; simpa using h
  | cons p ps ih =>
    intro acc h e he
    refine ih (step acc p) ?_ e he
    intro f hf
    rcases mem_insertRecord f (parseVersion p).key p (parseVersion p).ord acc hf with
      h' | h'
    · exact h f h'
    · subst h'; exact ⟨rfl, rfl⟩

lemma entryWf_latestFold (inv : List Path) : ∀ e ∈ latestFold inv, EntryWf e :=
  entryWf_foldl inv [] (by simp)

lemma mem_keysOf_insertRecord (k' k p : Path) (o : Nat) :
    ∀ acc : List Entry,
      k' ∈ keysOf (insertRecord k p o acc) → k' ∈ keysOf acc ∨ k' = k := by
  intro acc
  induction acc with
  | nil => simp [insertRecord, keysOf]
  | cons f fs ih =>
    by_cases hf : f.1 = k
    · by_cases ho : f.2.2 < o
      · simp only [insertRecord, if_pos hf, if_pos ho, keysOf, List.map_cons,
          List.mem_cons]
        rintro (h | h)
        · exact Or.inr h
        · exact Or.inl (Or.inr h)
      · simp only [insertRecord, if_pos hf, if_neg ho, keysOf, List.map_cons,
          List.mem_cons]
        exact fun h => Or.inl h
    · simp only [insertRecord, if_neg hf, keysOf, List.map_cons, List.mem_cons]
      rintro (h | h)
      · exact Or.inl (Or.inl h)
      · rcases ih h with h' | h'
        · exact Or.inl (Or.inr h')
        · exact Or.inr h'

lemma nodup_keysOf_insertRecord (k p : Path) (o : Nat) :
    ∀ acc : List Entry, (keysOf acc).Nodup → (keysOf (insertRecord k p o acc)).Nodup := by
  intro acc
  induction acc with
  | nil => intro _; simp [insertRecord, keysOf]
  | cons f fs ih =>
    intro h
    simp only [keysOf, List.map_cons, List.nodup_cons] at h
    by_cases hf : f.1 = k
    · by_cases ho : f.2.2 < o
      · simp only [insertRecord, if_pos hf, if_pos ho, keysOf, List.map_cons,
          List.nodup_cons]
        exact ⟨fun hm => h.1 (hf ▸ hm), h.2⟩
      · simp only [insertRecord, if_pos hf, if_neg ho, keysOf, List.map_cons,
          List.nodup_cons]
        exact h
    · simp only [insertRecord, if_neg hf, keysOf, List.map_cons, List.nodup_cons]
      refine ⟨fun hm => ?_, ih h.2⟩
      rcases mem_keysOf_insertRecord f.1 k p o fs hm with h' | h'
      · exact h.1 h'
      · exact hf h'

lemma nodup_keysOf_latestFold (inv : List Path) : (keysOf (latestFold inv)).Nodup := by
  have main : ∀ xs : List Path, ∀ acc : List Entry,
      (keysOf acc).Nodup → (keysOf (xs.foldl step acc)).Nodup := by
    intro xs
    induction xs with
    | nil => intro acc h; simpa using h
    | cons p ps ih =>
      intro acc h
      exact ih (step acc p) (nodup_keysOf_insertRecord _ _ _ acc h)
  exact main inv [] (by simp [keysOf])

lemma lookupAcc_of_mem (e : Entry) :
    ∀ acc : List Entry, (keysOf acc).Nodup → e ∈ acc →
      lookupAcc e.1 acc = some (e.2.1, e.2.2) := by
  intro acc
  induction acc with
  | nil => simp
  | cons f fs ih =>
    intro hn he
    simp only [keysOf, List.map_cons, List.nodup_cons] at hn
    rcases List.mem_cons.mp he with rfl | hmem
    · simp [lookupAcc]
    · have hne : ¬ f.1 = e.1 := by
        intro hcontr
        exact hn.1 (hcontr ▸ List.mem_map_of_mem (fun x => x.1) hmem)
      simp only [lookupAcc, if_neg hne]
      exact ih hn.2 hmem

lemma mem_latest (x : Path) (inv : List Path)
    (h : x ∈ get_latest_files inv) :
    bestEntry (parseVersion x).key inv = some (x, (parseVersion x).ord) := by
  rcases List.mem_map.mp h with ⟨e, he, rfl⟩
  have hwf := entryWf_latestFold inv e he
  have hl := lookupAcc_of_mem e (latestFold inv) (nodup_keysOf_latestFold inv) he
  rw [hwf.1, hwf.2, ← lookupAcc_latestFold]
  exact hl

lemma bestEntry_spec :
    ∀ (inv : List Path) (k q : Path) (o : Nat),
      bestEntry k inv = some (q, o) →
      (parseVersion q).key = k ∧ (parseVersion q).ord = o ∧
        ∃ pre suf, inv = pre ++ q :: suf ∧
          ∀ r ∈ pre, (parseVersion r).key = k → (parseVersion r).ord < o := by
  intro inv
  induction inv with
  | nil => intro k q o h; simp [bestEntry] at h
  | cons p ps ih =>
    intro k q o h
    rw [bestEntry_cons] at h
    by_cases hk : (parseVersion p).key = k
    · rw [if_pos hk] at h
      cases hb : bestEntry k ps with
      | none =>
        rw [hb] at h
        simp only [comb, Option.some.injEq, Prod.mk.injEq] at h
        obtain ⟨rfl, rfl⟩ := h
        exact ⟨hk, rfl, [], ps, rfl, by simp⟩
      | some f =>
        rw [hb] at h
        simp only [comb] at h
        by_cases ho : (parseVersion p).ord < f.2
        · rw [if_pos ho] at h
          have hfqo : f = (q, o) := by injection h
          subst hfqo
          obtain ⟨hkey, hord, pre, suf, hsplit, hstrict⟩ := ih k q o hb
          refine ⟨hkey, hord, p :: pre, suf, by simp [hsplit], ?_⟩
          intro r hr hrk
          rcases List.mem_cons.mp hr with rfl | hr'
          · simpa using ho
          · exact hstrict r hr' hrk
        · rw [if_neg ho] at h
          simp only [Option.some.injEq, Prod.mk.injEq] at h
          obtain ⟨rfl, rfl⟩ := h
          exact ⟨hk, rfl, [], ps, rfl, by simp⟩
    · rw [if_neg hk] at h
      obtain ⟨hkey, hord, pre, suf, hsplit, hstrict⟩ := ih k q o h
      refine ⟨hkey, hord, p :: pre, suf, by simp [hsplit], ?_⟩
      intro r hr hrk
      rcases List.mem_cons.mp hr with rfl | hr'
      · exact absurd hrk hk
      · exact hstrict r hr' hrk

lemma latest_subset (x : Path) (inv : List Path)
    (h : x ∈ get_latest_files inv) : x ∈ inv := by
  obtain ⟨_, _, pre, suf, hsplit, _⟩ :=
    bestEntry_spec inv (parseVersion x).key x (parseVersion x).ord (mem_latest x inv h)
  rw [hsplit]
  simp

lemma first_occ_eq {α : Type} :
    ∀ (A C : List α) {B D : List α} {q : α},
      A ++ q :: B = C ++ q :: D → q ∉ A → q ∉ C → A = C ∧ B = D := by
  intro A
  induction A with
  | nil =>
    intro C B D q h hA hC
    cases C with
    | nil => simpa using h
    | cons c C' =>
      simp only [List.nil_append, List.cons_append, List.cons.injEq] at h
      exact absurd (h.1 ▸ List.mem_cons_self c C') hC
  | cons a A' ih =>
    intro C B D q h hA hC
    cases C with
    | nil =>
      simp only [List.cons_append, List.nil_append, List.cons.injEq] at h
      exact absurd (h.1 ▸ List.mem_cons_self a A') hA
    | cons c C' =>
      simp only [List.cons_append, List.cons.injEq] at h
      have hA' : q ∉ A' := fun hm => hA (List.mem_cons_of_mem a hm)
      have hC' : q ∉ C' := fun hm => hC (List.mem_cons_of_mem c hm)
      obtain ⟨rfl, hBD⟩ := ih C' h.2 hA' hC'
      exact ⟨by rw [h.1], hBD⟩

lemma warn_not_mem_delLoop (td : List Path) (pth : Path) :
    ∀ answers : List Ans, Event.warnAmbiguous pth ∉ delLoop td answers := by
  intro answers
  induction answers with
  | nil => simp [delLoop]
  | cons a rest ih =>
    cases a <;> simp [delLoop] <;> exact ih

lemma warn_not_mem_syncTrace (i : SyncIn) (pth : Path) :
    Event.warnAmbiguous pth ∉ syncTrace i := by
  unfold syncTrace
  intro h
  rcases List.mem_append.mp h with h1 | h2
  · revert h1
    split <;> simp
  · revert h2
    split
    · intro h2
      rcases List.mem_cons.mp h2 with h3 | h3
      · exact absurd h3 (by simp)
      · revert h3
        split
        · simp
        · intro h3
          simp only [List.mem_cons] at h3
          rcases h3 with h4 | h4 | h4 | h4 | h4 | h4
          · exact absurd h4 (by simp)
          · exact absurd h4 (by simp)
          · exact absurd h4 (by simp)
          · exact absurd h4 (by simp)
          · exact absurd h4 (by simp)
          · rcases List.mem_append.mp h4 with h5 | h5
            · revert h5
              unfold delPhase
              split
              · simp
              · exact fun h5 => warn_not_mem_delLoop _ pth _ h5
            · simp at h5
    · simp

lemma cons_peel {e : Event} {rest pre post : List Event} {fs : List Path}
    (h : e :: rest = pre ++ Event.deleteFiles fs :: post)
    (hne : ∀ g, e ≠ Event.deleteFiles g) :
    ∃ pre1, pre = e :: pre1 ∧ rest = pre1 ++ Event.deleteFiles fs :: post := by
  cases pre with
  | nil =>
    rw [List.nil_append] at h
    injection h with h1 h2
    exact absurd h1 (hne fs)
  | cons x pre1 =>
    rw [List.cons_append] at h
    injection h with h1 h2
    exact ⟨pre1, by rw [h1], h2⟩

lemma noDelete_noSplit {tr pre post : List Event} {fs : List Path}
    (htr : ∀ g, Event.deleteFiles g ∉ tr)
    (h : tr = pre ++ Event.deleteFiles fs :: post) : False := by
  refine htr fs ?_
  rw [h]
  exact List.mem_append_right pre (List.mem_cons_self _ _)

lemma noDel_split :
    ∀ (A : List Event), (∀ g, Event.deleteFiles g ∉ A) →
      ∀ {B pre post : List Event} {fs : List Path},
        A ++ B = pre ++ Event.deleteFiles fs :: post →
        ∃ pre2, pre = A ++ pre2 ∧ B = pre2 ++ Event.deleteFiles fs :: post := by
  intro A
  induction A with
  | nil =>
    intro _ B pre post fs h
    exact ⟨pre, rfl, by simpa using h⟩
  | cons a A' ih =>
    intro hA B pre post fs h
    rw [List.cons_append] at h
    obtain ⟨pre1, hpre, h2⟩ := cons_peel h (fun g hg => hA g (by rw [hg]; exact List.mem_cons_self _ _))
    have hA' : ∀ g, Event.deleteFiles g ∉ A' := fun g hm =>
      hA g (List.mem_cons_of_mem a hm)
    obtain ⟨pre2, hpre2, hB⟩ := ih hA' h2
    exact ⟨pre2, by rw [hpre, hpre2, List.cons_append], hB⟩

lemma delLoop_delete :
    ∀ (answers : List Ans) (td : List Path) (suffix : List Event),
      (∀ g, Event.deleteFiles g ∉ suffix) →
      ∀ {pre post : List Event} {fs : List Path},
        delLoop td answers ++ suffix = pre ++ Event.deleteFiles fs :: post →
        fs = td ∧ Event.askDelete td.length ∈ pre := by
  intro answers
  induction answers with
  | nil =>
    intro td suffix hsuf pre post fs h
    simp only [delLoop, List.cons_append, List.nil_append] at h
    obtain ⟨pre1, hpre, h2⟩ := cons_peel h (by intro g; simp)
    exact absurd h2 (fun h2 => noDelete_noSplit hsuf h2)
  | cons a rest ih =>
    intro td suffix hsuf pre post fs h
    simp only [delLoop, List.cons_append] at h
    obtain ⟨pre1, hpre, h2⟩ := cons_peel h (by intro g; simp)
    have hask : Event.askDelete td.length ∈ pre := by
      rw [hpre]
      exact List.mem_cons_self _ _
    cases a with
    | yes =>
      simp only [List.cons_append, List.nil_append] at h2
      cases pre1 with
      | nil =>
        rw [List.nil_append] at h2
        injection h2 with h3 h4
        injection h3 with h5
        exact ⟨h5.symm, hask⟩
      | cons y pre2 =>
        rw [List.cons_append] at h2
        injection h2 with h3 h4
        exact absurd h4 (fun h4 => noDelete_noSplit hsuf h4)
    | no =>
      rw [List.nil_append] at h2
      exact absurd h2 (fun h2 => noDelete_noSplit hsuf h2)
    | printList =>
      rw [List.cons_append] at h2
      obtain ⟨pre2, hpre2, h3⟩ := cons_peel h2 (by intro g; simp)
      exact ⟨(ih td suffix hsuf h3).1, hask⟩
    | other =>
      rw [List.cons_append] at h2
      obtain ⟨pre2, hpre2, h3⟩ := cons_peel h2 (by intro g; simp)
      exact ⟨(ih td suffix hsuf h3).1, hask⟩

lemma parse_malformed (p : Path) (h : (parseVersion p).ok = false) :
    parseVersion p = ⟨basename p, 0, false⟩ := by
  rcases hs : splitLastV (basename p) with _ | ⟨pre, post⟩ <;>
    simp only [parseVersion, hs] at h ⊢
  by_cases hd : (post.takeWhile Char.isDigit).isEmpty
  · rw [if_pos hd]
  · rw [if_neg hd] at h
    simp at h

/-
Claim theorems.
-/

/-- Concrete run refuting claim C1: the local inventory enumerated with
the sync pattern holds only the a-product; after the fetch the deletion
step re-enumerates every local .fits file and also schedules the
superseded b-product, which was in no inventory the planner saw. -/
def c1Pat : List Path := ["/l1b/orbit00100/a_v1.fits".toList]

/-- Production inventory of the C1 counterexample run. -/
def c1Prod : List Path := [production_l1b ++ ("orbit00100/a_v2.fits").toList]

/-- Post-fetch local re-enumeration of the C1 counterexample run: the
two a-versions plus two b-versions that did not match the sync pattern. -/
def c1Post : List Path :=
  ["/l1b/orbit00100/a_v1.fits".toList,
   "/l1b/orbit00100/a_v2.fits".toList,
   "/l1b/orbit00100/b_v1.fits".toList,
   "/l1b/orbit00100/b_v2.fits".toList]

/-- Claim C1 is false of the code: the deletion set computed at
download.py lines 445-448 is not the set of local-inventory members
missing from the latest set of the combined inventory.  In the run
c1Pat/c1Prod (with empty stage), the superseded local b-product b_v1 is
scheduled for deletion although it is not a member of the local
inventory the planner received. -/
theorem c1_counterexample :
    ¬ (∀ x : Path,
        x ∈ local_files_to_delete c1Post ↔
          x ∈ c1Pat.filter
            (fun a => decide (a ∉ files_to_sync c1Pat c1Prod []))) := by
  intro h
  have h1 : ("/l1b/orbit00100/b_v1.fits").toList ∈ local_files_to_delete c1Post := by
    decide
  have h2 := (h _).mp h1
  revert h2
  decide

/-- Claim C1 (amended): the deletion set equals exactly the members of
the post-fetch local re-enumeration that are not in the latest set
computed over that re-enumeration alone; the planner's combined
local-plus-remote inventory is not consulted for deletion. -/
theorem to_delete_local_characterization :
    ∀ (localPost : List Path) (x : Path),
      x ∈ local_files_to_delete localPost ↔
        x ∈ localPost ∧ x ∉ get_latest_files localPost := by
  intro localPost x
  exact mem_setdiff1d x localPost (get_latest_files localPost)

/-- Claim C2: the inventory handed to the latest-file resolver is
always the concatenation of the local inventory followed by the
production and stage inventories, with the local records strictly
first. -/
theorem combined_local_first :
    ∀ (localPat prod stage : List Path),
      files_to_sync localPat prod stage =
          get_latest_files (combined localPat prod stage) ∧
        combined localPat prod stage = localPat ++ (prod ++ stage) ∧
        (combined localPat prod stage).take localPat.length = localPat ∧
        (combined localPat prod stage).drop localPat.length = prod ++ stage := by
  intro l p s
  refine ⟨rfl, List.append_assoc l p s, ?_, ?_⟩
  · rw [combined, List.append_assoc]
    exact List.take_left l (p ++ s)
  · rw [combined, List.append_assoc]
    exact List.drop_left l (p ++ s)

/-- Claim C6: the planner is deterministic; identical inputs give
identical reconciliation plans and identical run traces. -/
theorem plan_deterministic :
    ∀ i j : SyncIn, i = j → planOf i = planOf j ∧ syncTrace i = syncTrace j := by
  intro i j h
  subst h
  exact ⟨rfl, rfl⟩

/-- Concrete input for the C6 witness. -/
def c6In : SyncIn :=
  ⟨false, true, [], [production_l1b ++ ("orbit00100/a_v1.fits").toList], [],
   [], [], []⟩

/-- Witness for C6 at a concrete input. -/
theorem plan_deterministic_witness :
    c6In = c6In ∧ planOf c6In = planOf c6In ∧ syncTrace c6In = syncTrace c6In :=
  ⟨rfl, (plan_deterministic c6In c6In rfl).1, (plan_deterministic c6In c6In rfl).2⟩

/-- Claim C7: the filename version parser is total (it is a function);
a name that does not match the version pattern yields ok=false with the
ordinal defaulted to 0, the lowest possible value, and its logical key
is its own filename (the stable extractable prefix), so two malformed
names share a logical key exactly when their filenames agree and a
malformed name is never merged into a different logical key; any path,
malformed or not, is processed by the resolver without failure and can
only be emitted from the inventory itself. -/
theorem parser_total_malformed :
    ∀ pth : Path,
      ((parseVersion pth).ok = false →
        (parseVersion pth).ord = 0 ∧ (parseVersion pth).key = basename pth) ∧
      (∀ q : Path, (parseVersion pth).ok = false → (parseVersion q).ok = false →
        ((parseVersion pth).key = (parseVersion q).key ↔
          basename pth = basename q)) ∧
      (∀ inv : List Path, pth ∈ get_latest_files inv → pth ∈ inv) := by
  intro pth
  refine ⟨?_, ?_, ?_⟩
  · intro h
    rw [parse_malformed pth h]
    exact ⟨rfl, rfl⟩
  · intro q hp hq
    rw [parse_malformed pth hp, parse_malformed q hq]
  · intro inv h
    exact latest_subset pth inv h

/-- Witness for C7 at a concrete malformed path. -/
theorem parser_total_malformed_witness :
    (parseVersion ("dir/c_unparsable.xyz").toList).ok = false ∧
      (parseVersion ("dir/c_unparsable.xyz").toList).ord = 0 ∧
      (parseVersion ("dir/c_unparsable.xyz").toList).key =
        basename ("dir/c_unparsable.xyz").toList :=
  ⟨by decide,
   ((parser_total_malformed ("dir/c_unparsable.xyz").toList).1 (by decide)).1,
   ((parser_total_malformed ("dir/c_unparsable.xyz").toList).1 (by decide)).2⟩

/-- Claim C5: with the local inventory and both remote inventories
empty, the run takes the early-return branch (no fetch, no deletion)
and every planner output is empty; no error is raised (the trace is a
totally defined value ending at the no-matching-files report). -/
theorem empty_inputs_empty_plan :
    ∀ i : SyncIn, i.l1b = true → i.localPat = [] → i.prod = [] → i.stage = [] →
      syncTrace i =
          (if i.spice then [Event.spiceSync] else []) ++
            [Event.printFetching, Event.printNoMatching] ∧
        (∀ fs, Event.fetchProd fs ∉ syncTrace i) ∧
        (∀ fs, Event.fetchStage fs ∉ syncTrace i) ∧
        (∀ fs, Event.deleteFiles fs ∉ syncTrace i) ∧
        files_from_production [] [] [] = [] ∧
        files_from_stage [] [] [] = [] ∧
        local_files_to_delete [] = [] ∧
        unchanged [] [] [] = [] := by
  intro i hl hpat hp hs
  have htrace : syncTrace i =
      (if i.spice then [Event.spiceSync] else []) ++
        [Event.printFetching, Event.printNoMatching] := by
    unfold syncTrace
    rw [hl, hp, hs]
    simp
  refine ⟨htrace, ?_, ?_, ?_, rfl, rfl, rfl, rfl⟩ <;>
    · intro fs hm
      rw [htrace] at hm
      rcases List.mem_append.mp hm with h1 | h2
      · revert h1
        split <;> simp
      · simp at h2

/-- Concrete input for the C5 witness. -/
def c5In : SyncIn := ⟨true, true, [], [], [], [], [], []⟩

/-- Witness for C5 at a concrete input. -/
theorem empty_inputs_empty_plan_witness :
    (∀ fs, Event.fetchProd fs ∉ syncTrace c5In) ∧
      local_files_to_delete [] = [] :=
  ⟨(empty_inputs_empty_plan c5In rfl rfl rfl rfl).2.1,
   (empty_inputs_empty_plan c5In rfl rfl rfl rfl).2.2.2.2.2.2.1⟩

/-- Claim C10: with both remote inventories empty, the run reports that
no files matched and returns at once: no transfer event, no deletion
event, and no filename-index write appears in the trace, whatever the
local inventories hold. -/
theorem no_remote_files_early_return :
    ∀ i : SyncIn, i.l1b = true → i.prod = [] → i.stage = [] →
      syncTrace i =
          (if i.spice then [Event.spiceSync] else []) ++
            [Event.printFetching, Event.printNoMatching] ∧
        (∀ fs, Event.fetchProd fs ∉ syncTrace i) ∧
        (∀ fs, Event.fetchStage fs ∉ syncTrace i) ∧
        (∀ fs, Event.deleteFiles fs ∉ syncTrace i) ∧
        (∀ fs, Event.saveIndex fs ∉ syncTrace i) := by
  intro i hl hp hs
  have htrace : syncTrace i =
      (if i.spice then [Event.spiceSync] else []) ++
        [Event.printFetching, Event.printNoMatching] := by
    unfold syncTrace
    rw [hl, hp, hs]
    simp
  refine ⟨htrace, ?_, ?_, ?_, ?_⟩ <;>
    · intro fs hm
      rw [htrace] at hm
      rcases List.mem_append.mp hm with h1 | h2
      · revert h1
        split <;> simp
      · simp at h2

/-- Concrete input for the C10 witness: the local tree still holds a
superseded version, yet nothing is fetched, deleted or indexed. -/
def c10In : SyncIn :=
  ⟨false, true,
   ["/l1b/orbit00100/a_v1.fits".toList, "/l1b/orbit00100/a_v2.fits".toList],
   [], [],
   ["/l1b/orbit00100/a_v1.fits".toList, "/l1b/orbit00100/a_v2.fits".toList],
   ["/l1b/orbit00100/a_v1.fits".toList], [Ans.yes]⟩

/-- Witness for C10 at a concrete input. -/
theorem no_remote_files_early_return_witness :
    syncTrace c10In =
        (if c10In.spice then [Event.spiceSync] else []) ++
          [Event.printFetching, Event.printNoMatching] ∧
      ∀ fs, Event.deleteFiles fs ∉ syncTrace c10In :=
  ⟨(no_remote_files_early_return c10In rfl rfl rfl).1,
   (no_remote_files_early_return c10In rfl rfl rfl).2.2.2.1⟩

/-- Claim C3: given two records with the same logical key and the same
version ordinal, the resolver never selects the later one (provided the
later path does not itself also occur earlier); in a local-first
combined ordering the locally present copy therefore wins every tie. -/
theorem resolver_tie_break :
    ∀ (xs ys zs : List Path) (p q : Path),
      (parseVersion p).key = (parseVersion q).key →
      (parseVersion p).ord = (parseVersion q).ord →
      q ∉ xs → q ≠ p → q ∉ ys →
      q ∉ get_latest_files (xs ++ p :: ys ++ q :: zs) := by
  intro xs ys zs p q hk ho hqx hqp hqy hmem
  have hb := mem_latest q _ hmem
  obtain ⟨_, _, pre, suf, hsplit, hstrict⟩ := bestEntry_spec _ _ _ _ hb
  have hqpre : q ∉ pre := by
    intro hq
    exact absurd (hstrict q hq rfl) (lt_irrefl _)
  have hassoc : xs ++ p :: ys ++ q :: zs = (xs ++ p :: ys) ++ q :: zs := by
    simp
  have hqxpy : q ∉ xs ++ p :: ys := by
    intro hq
    rcases List.mem_append.mp hq with h1 | h1
    · exact hqx h1
    · rcases List.mem_cons.mp h1 with h2 | h2
      · exact hqp h2
      · exact hqy h2
  have hfo := first_occ_eq (xs ++ p :: ys) pre (by rw [← hassoc, hsplit]) hqxpy hqpre
  have hp_pre : p ∈ pre := by
    rw [← hfo.1]
    exact List.mem_append_right xs (List.mem_cons_self p ys)
  have hlt := hstrict p hp_pre hk
  rw [ho] at hlt
  exact lt_irrefl _ hlt

/-- Concrete paths for the C3 witness: a local and a remote copy of the
same product at the same version. -/
def c3Local : Path := "local/a_v1.dat".toList

/-- Remote copy for the C3 witness. -/
def c3Remote : Path := "remote/a_v1.dat".toList

/-- Witness for C3 at a concrete input: the later (remote) copy of a
tied pair is not selected. -/
theorem resolver_tie_break_witness :
    (parseVersion c3Local).key = (parseVersion c3Remote).key ∧
      (parseVersion c3Local).ord = (parseVersion c3Remote).ord ∧
      c3Remote ∉ get_latest_files [c3Local, c3Remote] :=
  ⟨by decide, by decide,
   resolver_tie_break [] [] [] c3Local c3Remote (by decide) (by decide)
     (by decide) (by decide) (by decide)⟩

/-- Claim C4: under the operating frame (every production path carries
the production root prefix, every stage path the stage root prefix, no
local path carries either), each fetched path is assigned to the root
whose inventory contains it, is emitted stripped of that root's
directory prefix (appending the prefix recovers the original), every
latest-set member found in a remote inventory is assigned to that
root's list, and each per-root list preserves the relative order of the
fetch set. -/
theorem attribution_correct :
    ∀ (l p s : List Path),
      (∀ x ∈ p, x.take production_l1b.length = production_l1b) →
      (∀ x ∈ s, x.take stage_l1b.length = stage_l1b) →
      (∀ x ∈ l, x.take production_l1b.length ≠ production_l1b ∧
                x.take stage_l1b.length ≠ stage_l1b) →
      (∀ x ∈ files_from_production l p s,
          production_l1b ++ x ∈ p ∧
            production_l1b ++ x ∈ files_to_sync l p s) ∧
      (∀ x ∈ files_from_stage l p s,
          stage_l1b ++ x ∈ s ∧ stage_l1b ++ x ∈ files_to_sync l p s) ∧
      (∀ a ∈ files_to_sync l p s,
          (a ∈ p → a.drop production_l1b.length ∈ files_from_production l p s) ∧
          (a ∈ s → a.drop stage_l1b.length ∈ files_from_stage l p s)) ∧
      List.Sublist
        ((files_from_production l p s).map (fun x => production_l1b ++ x))
        (files_to_sync l p s) ∧
      List.Sublist
        ((files_from_stage l p s).map (fun x => stage_l1b ++ x))
        (files_to_sync l p s) := by
  intro l p s hp hs hl
  refine ⟨?_, ?_, ?_, ?_, ?_⟩
  · intro x hx
    rcases List.mem_map.mp hx with ⟨a, ha, rfl⟩
    have hfa := List.mem_filter.mp ha
    have htake : a.take production_l1b.length = production_l1b :=
      of_decide_eq_true hfa.2
    rw [takeDropRecover a production_l1b production_l1b.length htake]
    refine ⟨?_, hfa.1⟩
    have hmem := latest_subset a _ hfa.1
    rcases List.mem_append.mp hmem with h1 | h1
    · rcases List.mem_append.mp h1 with h2 | h2
      · exact absurd htake (hl a h2).1
      · exact h2
    · exact absurd (rootsIncompat a htake (hs a h1)) (fun f => f)
  · intro x hx
    rcases List.mem_map.mp hx with ⟨a, ha, rfl⟩
    have hfa := List.mem_filter.mp ha
    have htake : a.take stage_l1b.length = stage_l1b :=
      of_decide_eq_true hfa.2
    rw [takeDropRecover a stage_l1b stage_l1b.length htake]
    refine ⟨?_, hfa.1⟩
    have hmem := latest_subset a _ hfa.1
    rcases List.mem_append.mp hmem with h1 | h1
    · rcases List.mem_append.mp h1 with h2 | h2
      · exact absurd htake (hl a h2).2
      · exact absurd (rootsIncompat a (hp a h2) htake) (fun f => f)
    · exact h1
  · intro a ha
    constructor
    · intro hap
      exact List.mem_map.mpr
        ⟨a, List.mem_filter.mpr ⟨ha, decide_eq_true (hp a hap)⟩, rfl⟩
    · intro has
      exact List.mem_map.mpr
        ⟨a, List.mem_filter.mpr ⟨ha, decide_eq_true (hs a has)⟩, rfl⟩
  · have hmm :
        ((files_to_sync l p s).filter
            (fun a => decide (a.take production_l1b.length = production_l1b))).map
          ((fun x => production_l1b ++ x) ∘ (fun a => a.drop production_l1b.length)) =
        (files_to_sync l p s).filter
          (fun a => decide (a.take production_l1b.length = production_l1b)) := by
      apply map_eq_self
      intro a ha
      exact takeDropRecover a production_l1b production_l1b.length
        (of_decide_eq_true (List.mem_filter.mp ha).2)
    rw [files_from_production, List.map_map, hmm]
    exact List.filter_sublist _
  · have hmm :
        ((files_to_sync l p s).filter
            (fun a => decide (a.take stage_l1b.length = stage_l1b))).map
          ((fun x => stage_l1b ++ x) ∘ (fun a => a.drop stage_l1b.length)) =
        (files_to_sync l p s).filter
          (fun a => decide (a.take stage_l1b.length = stage_l1b)) := by
      apply map_eq_self
      intro a ha
      exact takeDropRecover a stage_l1b stage_l1b.length
        (of_decide_eq_true (List.mem_filter.mp ha).2)
    rw [files_from_stage, List.map_map, hmm]
    exact List.filter_sublist _

/-- Local inventory for the C4 witness. -/
def c4L : List Path := ["/l1b/orbit00100/a_v1.fits".toList]

/-- Production inventory for the C4 witness. -/
def c4P : List Path := [production_l1b ++ ("orbit00100/a_v2.fits").toList]

/-- Stage inventory for the C4 witness. -/
def c4S : List Path := [stage_l1b ++ ("orbit00100/c_v1.fits").toList]

/-- Witness for C4 at concrete inventories. -/
theorem attribution_correct_witness :
    (∀ x ∈ files_from_production c4L c4P c4S,
        production_l1b ++ x ∈ c4P ∧
          production_l1b ++ x ∈ files_to_sync c4L c4P c4S) ∧
      List.Sublist
        ((files_from_production c4L c4P c4S).map (fun x => production_l1b ++ x))
        (files_to_sync c4L c4P c4S) :=
  ⟨(attribution_correct c4L c4P c4S (by decide) (by decide) (by decide)).1,
   (attribution_correct c4L c4P c4S (by decide) (by decide) (by decide)).2.2.2.1⟩

/-- Claim C8 (amended): the run never emits an ambiguous-source
warning, and attribution is by root directory prefix, so no original
path is ever assigned to both per-root lists; a path reported by two
roots goes only to the root whose prefix it bears, not necessarily to
the first-listed root. -/
theorem ambiguous_source_amended :
    ∀ i : SyncIn,
      (∀ pth, Event.warnAmbiguous pth ∉ syncTrace i) ∧
      (∀ a : Path,
        a ∈ (files_from_production i.localPat i.prod i.stage).map
              (fun x => production_l1b ++ x) →
        a ∉ (files_from_stage i.localPat i.prod i.stage).map
              (fun x => stage_l1b ++ x)) := by
  intro i
  refine ⟨fun pth => warn_not_mem_syncTrace i pth, ?_⟩
  intro a hp hs
  rcases List.mem_map.mp hp with ⟨x, _, rfl⟩
  rcases List.mem_map.mp hs with ⟨y, _, heq⟩
  refine rootsIncompat (production_l1b ++ x) (List.take_left _ _) ?_
  rw [← heq]
  exact List.take_left _ _

/-- Concrete input for the C8 amended witness. -/
def c8In : SyncIn :=
  ⟨false, true, [], [production_l1b ++ ("orbit00100/a_v1.fits").toList], [],
   [], [], []⟩

/-- Witness for the amended C8 at a concrete input. -/
theorem ambiguous_source_amended_witness :
    (production_l1b ++ ("orbit00100/a_v1.fits").toList) ∈
        (files_from_production c8In.localPat c8In.prod c8In.stage).map
          (fun x => production_l1b ++ x) ∧
      (production_l1b ++ ("orbit00100/a_v1.fits").toList) ∉
        (files_from_stage c8In.localPat c8In.prod c8In.stage).map
          (fun x => stage_l1b ++ x) :=
  ⟨by decide, (ambiguous_source_amended c8In).2 _ (by decide)⟩

/-- Path reported by both remote roots in the C8 counterexample. -/
def c8DupPath : Path := stage_l1b ++ ("orbit00100/d_v1.fits").toList

/-- Input of the C8 counterexample run: both remote inventories list
the same path. -/
def c8DupIn : SyncIn := ⟨false, true, [], [c8DupPath], [c8DupPath], [], [], []⟩

/-- Claim C8 is false of the code: with the same path reported by both
remote roots, the run emits no ambiguous-source warning, and the path
is not assigned to the first root in caller order (production): it is
placed on the stage list only, because assignment is by directory
prefix. -/
theorem c8_counterexample :
    (∀ pth, Event.warnAmbiguous pth ∉ syncTrace c8DupIn) ∧
      c8DupPath ∈ files_to_sync c8DupIn.localPat c8DupIn.prod c8DupIn.stage ∧
      files_from_production c8DupIn.localPat c8DupIn.prod c8DupIn.stage = [] ∧
      files_from_stage c8DupIn.localPat c8DupIn.prod c8DupIn.stage =
        [("orbit00100/d_v1.fits").toList] :=
  ⟨fun pth => warn_not_mem_syncTrace c8DupIn pth, by decide, by decide, by decide⟩

/-- Claim C9: in every run, any local deletion is preceded in the trace
by the prompt that reports the exact count of the files about to be
deleted, so the user can decline before anything destructive happens. -/
theorem delete_reported_first :
    ∀ (i : SyncIn) (pre post : List Event) (fs : List Path),
      syncTrace i = pre ++ Event.deleteFiles fs :: post →
      Event.askDelete fs.length ∈ pre := by
  intro i pre post fs h
  have hS : ∀ g, Event.deleteFiles g ∉
      (if i.spice then [Event.spiceSync] else []) := by
    intro g
    split <;> simp
  unfold syncTrace at h
  by_cases hl : i.l1b = true
  · rw [if_pos hl] at h
    by_cases hg : i.prod.length = 0 ∧ i.stage.length = 0
    · rw [if_pos hg] at h
      refine absurd h (fun h => noDelete_noSplit ?_ h)
      intro g hm
      rcases List.mem_append.mp hm with h1 | h1
      · exact hS g h1
      · simp at h1
    · rw [if_neg hg] at h
      have hre : ∀ (S : List Event) (e1 e2 e3 e4 e5 e6 : Event) (X : List Event),
          S ++ (e1 :: e2 :: e3 :: e4 :: e5 :: e6 :: X) =
            (S ++ [e1, e2, e3, e4, e5, e6]) ++ X := by
        intro S e1 e2 e3 e4 e5 e6 X
        simp
      rw [hre] at h
      have hA : ∀ g, Event.deleteFiles g ∉
          ((if i.spice then [Event.spiceSync] else []) ++
            [Event.printFetching,
             Event.printSyncCount (files_from_production i.localPat i.prod i.stage).length,
             Event.fetchProd (files_from_production i.localPat i.prod i.stage),
             Event.printSyncCount (files_from_stage i.localPat i.prod i.stage).length,
             Event.fetchStage (files_from_stage i.localPat i.prod i.stage),
             Event.printCleanup]) := by
        intro g hm
        rcases List.mem_append.mp hm with h1 | h1
        · exact hS g h1
        · simp at h1
      obtain ⟨pre2, hpre, h2⟩ := noDel_split _ hA h
      have hTail : ∀ g, Event.deleteFiles g ∉
          [Event.saveIndex (insSort i.localFinal), Event.printElapsed] := by
        intro g
        simp
      by_cases htd : (local_files_to_delete i.localPost).length = 0
      · rw [delPhase, if_pos htd, List.nil_append] at h2
        exact absurd h2 (fun h2 => noDelete_noSplit hTail h2)
      · rw [delPhase, if_neg htd] at h2
        obtain ⟨hfs, hask⟩ := delLoop_delete i.answers _ _ hTail h2
        rw [hpre, hfs]
        exact List.mem_append_right _ hask
  · rw [if_neg hl] at h
    refine absurd h (fun h => noDelete_noSplit ?_ h)
    intro g hm
    rcases List.mem_append.mp hm with h1 | h1
    · exact hS g h1
    · simp at h1

/-- Concrete input for the C9 witness: one file fetched from
production, one superseded local file deleted after a yes answer. -/
def c9In : SyncIn :=
  ⟨false, true, [], [production_l1b ++ ("orbit00100/a_v2.fits").toList], [],
   ["/l1b/orbit00100/b_v1.fits".toList, "/l1b/orbit00100/b_v2.fits".toList],
   ["/l1b/orbit00100/b_v2.fits".toList], [Ans.yes]⟩

/-- Events before the deletion in the C9 witness run. -/
def c9Pre : List Event :=
  [Event.printFetching, Event.printSyncCount 1,
   Event.fetchProd [("orbit00100/a_v2.fits").toList], Event.printSyncCount 0,
   Event.fetchStage [], Event.printCleanup, Event.askDelete 1]

/-- Events after the deletion in the C9 witness run. -/
def c9Post : List Event :=
  [Event.saveIndex [("/l1b/orbit00100/b_v2.fits").toList], Event.printElapsed]

/-- Witness for C9 at a concrete run containing a deletion. -/
theorem delete_reported_first_witness :
    syncTrace c9In =
        c9Pre ++
          Event.deleteFiles [("/l1b/orbit00100/b_v1.fits").toList] :: c9Post ∧
      Event.askDelete 1 ∈ c9Pre :=
  ⟨by decide,
   delete_reported_first c9In c9Pre c9Post
     [("/l1b/orbit00100/b_v1.fits").toList] (by decide)⟩

end MavenIuvs
